import Mathlib

/-!
Shallow embedding of the LSB image-steganography core (`steganography.py`)
and proofs about it.

Modelling conventions:
* A decoded image is a structure holding width, height, color-mode string and
  the pixel data exactly as `np.array(list(img.getdata()))` delivers it: a
  list of pixels, each pixel a list of channel bytes (row-major pixel order,
  channel order inside a pixel).  Machine bytes are natural numbers; the
  bitwise operators `&&&`/`|||` on `Nat` agree with the arbitrary-precision
  integers of the source language.
* A raised exception is an `Except.error`; the `encodeBits` helper, which can
  fall off the end of its loop and implicitly return `None`, yields an
  `Option`.
* Character strings are lists of code points (`List Nat`).
-/

namespace Steg

/-- Failure modes of the core.  `unsupportedFormat` and `messageTooLarge` are
the two exceptions raised explicitly by the source; `noneTypeAttributeError`
models the `AttributeError` raised when `encode` calls `.reshape` on the
`None` that `encodeBits` returned; `reshapeError` models the `ValueError`
`reshape` raises on an element-count mismatch. -/
inductive StegError where
  | unsupportedFormat
  | messageTooLarge
  | noneTypeAttributeError
  | reshapeError
deriving DecidableEq, Repr

/-- A decoded image: dimensions, color mode tag, and the flat pixel list as
returned by `img.getdata()` (each entry one pixel, i.e. one list of channel
bytes). -/
structure Image where
  width : Nat
  height : Nat
  mode : String
  data : List (List Nat)
deriving DecidableEq, Repr

/-- Source lines 13-23: 3 bytes per pixel for RGB, 4 for RGBA, an exception
for every other mode. -/
def determineBytesPerPixel (mode : String) : Except StegError Nat :=
  if mode = "RGB" then .ok 3
  else if mode = "RGBA" then .ok 4
  else .error .unsupportedFormat

/-- Source lines 26-34: `img.width * img.height * bytes_per_pixel // 8`,
propagating the unsupported-mode exception. -/
def calculateImageCapacity (img : Image) : Except StegError Nat :=
  match determineBytesPerPixel img.mode with
  | .error e => .error e
  | .ok bytes_per_pixel => .ok (img.width * img.height * bytes_per_pixel / 8)

/-- Source lines 37-46: `data[row][col] &= 254` over every byte. -/
def clearLSBits (data : List (List Nat)) : List (List Nat) :=
  data.map (fun row => row.map (fun b => b &&& 254))

/-- Inner loop of `encodeBits` over one pixel: pairs the cells of the row with
the remaining bits (`data[row][col] |= int(binary_string[index])`).  Returns
the processed row, the bits still to be written, and whether the early
`return data` was taken (which happens at the first cell reached with no bits
left). -/
def encodeRow : List Nat → List Nat → List Nat × List Nat × Bool
  | [], bits => ([], bits, false)
  | cell :: cells, [] => (cell :: cells, [], true)
  | cell :: cells, bit :: bits =>
    match encodeRow cells bits with
    | (cells', rem, early) => ((cell ||| bit) :: cells', rem, early)

/-- Source lines 49-65: writes each bit into the least significant bit of the
successive bytes and executes `return data` at the first byte reached after
the bits ran out.  When the loops finish without that early return (bit count
at least the total byte count) the function falls off its end, i.e. returns
`None`. -/
def encodeBits : List (List Nat) → List Nat → Option (List (List Nat))
  | [], _ => none
  | row :: rows, bits =>
    match encodeRow row bits with
    | (row', _, true) => some (row' :: rows)
    | (row', rem, false) => (encodeBits rows rem).map (fun rest => row' :: rest)

/-- Modelled from the spec: the external `unidecode` library (not part of this
repository) transliterates each character to its nearest 7-bit ASCII
equivalent and passes characters that are already ASCII (code points below
128) through unchanged.  Every claim quantifies over ASCII messages only,
where this normalization is the identity, so we embed that restriction of
the function. -/
def unidecode (message : List Nat) : List Nat :=
  message

/-- Source line 77, `format(ord(char), "08b")` for one character: its eight
bits, most significant first.  Exact for code points below 256; after
`unidecode` every code point is below 128. -/
def toBits8 (c : Nat) : List Nat :=
  [c / 128 % 2, c / 64 % 2, c / 32 % 2, c / 16 % 2, c / 8 % 2, c / 4 % 2,
   c / 2 % 2, c % 2]

/-- Source line 77: concatenation of the 8-bit codes of all characters. -/
def textToBits (message : List Nat) : List Nat :=
  (message.map toBits8).flatten

/-- Source lines 68-89, `encode`: capacity query, ASCII normalization,
bit-length check against `capacity` (note: the capacity is a character
count), LSB clearing, bit writing, and the final reshape back to an image.
The branches mirror the statements of the source in order; the reshape on
the `None` result of `encodeBits` raises, and a reshape with a mismatched
element count would also raise. -/
def encode (img : Image) (message : List Nat) : Except StegError Image :=
  match calculateImageCapacity img with
  | .error e => .error e
  | .ok capacity =>
    let message_binary := textToBits (unidecode message)
    if message_binary.length > capacity then .error .messageTooLarge
    else
      let data := clearLSBits img.data
      let data? := encodeBits data message_binary
      match determineBytesPerPixel img.mode with
      | .error e => .error e
      | .ok bytes_per_pixel =>
        match data? with
        | none => .error .noneTypeAttributeError
        | some d =>
          if d.flatten.length = img.height * img.width * bytes_per_pixel then
            .ok { img with data := d }
          else .error .reshapeError

/-- Source lines 92-104: the character at index 7 of `f"{byte:08b}"`, i.e. the
least significant bit of each byte (bytes delivered by `getdata()` are below
256), collected in buffer order. -/
def extractLSBits (data : List (List Nat)) : List Nat :=
  data.flatten.map (fun b => b % 2)

/-- Source lines 116-118: `binary_string[i:i+8]` for `i` in
`range(0, len(binary_string), 8)` — consecutive groups of eight bits, the
last group possibly shorter.  Written as a structural recursion so that it
evaluates inside the kernel. -/
def chunk8 : List Nat → List (List Nat)
  | [] => []
  | b0 :: b1 :: b2 :: b3 :: b4 :: b5 :: b6 :: b7 :: rest =>
    [b0, b1, b2, b3, b4, b5, b6, b7] :: chunk8 rest
  | l => [l]

/-- Value of a group of binary digits, most significant first:
`int(representation, 2)`. -/
def chunkVal (c : List Nat) : Nat :=
  c.foldl (fun acc b => 2 * acc + b) 0

/-- The sentinel group `"00000000"`. -/
def zeros8 : List Nat :=
  List.replicate 8 0

/-- Source line 123, `chr(int(representation, 2))` with its failure modes:
`int(_, 2)` raises on an empty string or a non-binary digit, `chr` raises
above `0x10FFFF` (impossible here, every group has at most eight digits). -/
def charFromByte (c : List Nat) : Option Nat :=
  if c = [] then none
  else if c.all (fun b => b ≤ 1) then
    if chunkVal c ≤ 1114111 then some (chunkVal c) else none
  else none

/-- Source lines 120-126: walk the byte groups, convert each to a character,
and return the accumulated message at the first group equal to
`"00000000"`. -/
def convertGo : List (List Nat) → Option (List Nat)
  | [] => some []
  | c :: cs =>
    if c ≠ zeros8 then
      match charFromByte c with
      | none => none
      | some v =>
        match convertGo cs with
        | none => none
        | some rest => some (v :: rest)
    else some []

/-- Source lines 107-126: split the bit string into byte groups and decode
them up to the sentinel. -/
def convertBinaryStringToMessage (binary_string : List Nat) : Option (List Nat) :=
  convertGo (chunk8 binary_string)

/-- Source lines 129-138: extract all least significant bits (no color mode
involved) and convert them to text. -/
def decode (img : Image) : Option (List Nat) :=
  convertBinaryStringToMessage (extractLSBits img.data)

/-! Concrete images used to instantiate the theorems below. -/

/-- An 8×3 RGB image (72 bytes, capacity 72/8 = 9 characters). -/
def imgRGB8x3 : Image :=
  { width := 8, height := 3, mode := "RGB", data := List.replicate 24 [10, 21, 31] }

/-- The result of encoding the one-character message with code 72 into
`imgRGB8x3`. -/
def outRGB8x3 : Image :=
  { width := 8, height := 3, mode := "RGB",
    data := [[10, 21, 30], [10, 21, 30]] ++ List.replicate 22 [10, 20, 30] }

/-- An 8×3 RGB image whose bytes all have least significant bit 0. -/
def imgRGB8x3even : Image :=
  { width := 8, height := 3, mode := "RGB", data := List.replicate 24 [10, 20, 30] }

/-- The 4×4 RGB image of the concrete scenario of the spec (48 bytes,
capacity 6 characters). -/
def imgRGB4x4 : Image :=
  { width := 4, height := 4, mode := "RGB", data := List.replicate 16 [9, 9, 9] }

/-- A 3×1 RGB image whose first eight bytes are even. -/
def imgFirstGroupZero : Image :=
  { width := 3, height := 1, mode := "RGB",
    data := [[2, 4, 6], [8, 10, 12], [14, 16, 255]] }

/-- An image with an empty pixel buffer (and a mode the core does not even
support, which decoding never inspects). -/
def imgEmptyBuffer : Image :=
  { width := 0, height := 0, mode := "P", data := [] }

/-! Arithmetic facts about the byte-level operations `&&& 254` and `||| bit`. -/

lemma land254_mod_two (x : Nat) : (x &&& 254) % 2 = 0 := by
  have h : (x &&& 254).testBit 0 = (x.testBit 0 && (254 : Nat).testBit 0) :=
    Nat.testBit_and x 254 0
  have h254 : (254 : Nat).testBit 0 = false := by decide
  rw [h254, Bool.and_false, Nat.testBit_zero] at h
  have := of_decide_eq_false h
  omega

lemma lor_bit_mod_two (x b : Nat) (hb : b ≤ 1) : ((x &&& 254) ||| b) % 2 = b := by
  rcases Nat.le_one_iff_eq_zero_or_eq_one.mp hb with rfl | rfl
  · rw [Nat.or_zero]
    exact land254_mod_two x
  · have h : ((x &&& 254) ||| 1).testBit 0
        = ((x &&& 254).testBit 0 || (1 : Nat).testBit 0) :=
      Nat.testBit_or (x &&& 254) 1 0
    have h1 : (1 : Nat).testBit 0 = true := by decide
    rw [h1, Bool.or_true, Nat.testBit_zero] at h
    have := of_decide_eq_true h
    omega

lemma testBit_one_succ (n : Nat) : (1 : Nat).testBit (n + 1) = false := by
  rw [Nat.testBit_add_one]
  norm_num

lemma lor_bit_land254 (x b : Nat) (hb : b ≤ 1) :
    ((x &&& 254) ||| b) &&& 254 = x &&& 254 := by
  rcases Nat.le_one_iff_eq_zero_or_eq_one.mp hb with rfl | rfl
  · rw [Nat.or_zero, Nat.and_assoc]; rfl
  · apply Nat.eq_of_testBit_eq
    intro i
    cases i with
    | zero =>
      have e1 : (254 : Nat).testBit 0 = false := by decide
      have e2 : (1 : Nat).testBit 0 = true := by decide
      simp only [Nat.testBit_and, Nat.testBit_or, e1, e2, Bool.and_false]
    | succ n =>
      simp only [Nat.testBit_and, Nat.testBit_or, testBit_one_succ, Bool.or_false,
        Bool.and_assoc, Bool.and_self]

lemma land254_land254 (x : Nat) : (x &&& 254) &&& 254 = x &&& 254 := by
  rw [Nat.and_assoc]; rfl

/-! List plumbing used to flatten the row/column loops of the source. -/

lemma zipWith_append_left (f : Nat → Nat → Nat) :
    ∀ (l₁ l₂ b : List Nat),
      List.zipWith f (l₁ ++ l₂) b
        = List.zipWith f l₁ b ++ List.zipWith f l₂ (b.drop l₁.length) := by
  intro l₁
  induction l₁ with
  | nil => simp
  | cons a l₁ ih =>
    intro l₂ b
    cases b with
    | nil => simp
    | cons b bs => simp [ih]

lemma drop_append_sub {α : Type} :
    ∀ (l₁ l₂ : List α) (n : Nat),
      (l₁ ++ l₂).drop n = l₁.drop n ++ l₂.drop (n - l₁.length) := by
  intro l₁
  induction l₁ with
  | nil => simp
  | cons a l₁ ih =>
    intro l₂ n
    cases n with
    | zero => simp
    | succ n => simpa [Nat.succ_sub_succ] using ih l₂ n

/-! Characterization of `encodeRow` and `encodeBits`. -/

lemma encodeRow_eq : ∀ (row bits : List Nat),
    encodeRow row bits
      = (List.zipWith (fun c b => c ||| b) row bits ++ row.drop bits.length,
         bits.drop row.length,
         decide (bits.length < row.length)) := by
  intro row
  induction row with
  | nil => intro bits; simp [encodeRow]
  | cons c cs ih =>
    intro bits
    cases bits with
    | nil => simp [encodeRow]
    | cons b bs => simp [encodeRow, ih, Nat.succ_lt_succ_iff]

lemma encodeBits_eq_none_iff : ∀ (data : List (List Nat)) (bits : List Nat),
    encodeBits data bits = none ↔ data.flatten.length ≤ bits.length := by
  intro data
  induction data with
  | nil => intro bits; simp [encodeBits]
  | cons row rows ih =>
    intro bits
    rcases Nat.lt_or_ge bits.length row.length with h | h
    · simp only [encodeBits, encodeRow_eq, decide_eq_true h]
      simp only [List.flatten_cons, List.length_append]
      constructor
      · intro hc; cases hc
      · intro hc; omega
    · have hd : decide (bits.length < row.length) = false := by
        simp [Nat.not_lt.mpr h]
      simp only [encodeBits, encodeRow_eq, hd]
      simp only [Option.map_eq_none', ih, List.length_drop, List.flatten_cons,
        List.length_append]
      omega

lemma encodeBits_some_flatten : ∀ (data : List (List Nat)) (bits : List Nat)
    (out : List (List Nat)), encodeBits data bits = some out →
    out.flatten
      = List.zipWith (fun c b => c ||| b) data.flatten bits
          ++ data.flatten.drop bits.length := by
  intro data
  induction data with
  | nil => intro bits out h; cases h
  | cons row rows ih =>
    intro bits out h
    rcases Nat.lt_or_ge bits.length row.length with hlt | hge
    · simp only [encodeBits, encodeRow_eq, decide_eq_true hlt] at h
      cases h
      have hbits : bits.drop row.length = [] :=
        List.drop_eq_nil_of_le (Nat.le_of_lt hlt)
      simp only [List.flatten_cons, zipWith_append_left, hbits,
        List.zipWith_nil_right, drop_append_sub,
        Nat.sub_eq_zero_of_le (Nat.le_of_lt hlt), List.drop_zero,
        List.append_nil, List.append_assoc]
    · have hd : decide (bits.length < row.length) = false := by
        simp [Nat.not_lt.mpr hge]
      simp only [encodeBits, encodeRow_eq, hd, Option.map_eq_some'] at h
      obtain ⟨out', hout', rfl⟩ := h
      have hrow : row.drop bits.length = [] := List.drop_eq_nil_of_le hge
      have := ih (bits.drop row.length) out' hout'
      simp only [List.flatten_cons, this, List.length_drop,
        zipWith_append_left, drop_append_sub, hrow, List.append_nil,
        List.append_assoc, List.nil_append]

lemma clearLSBits_flatten (data : List (List Nat)) :
    (clearLSBits data).flatten = data.flatten.map (fun b => b &&& 254) := by
  simp [clearLSBits, List.map_flatten]

lemma map_mod_map_land : ∀ (l : List Nat),
    (l.map (fun x => x &&& 254)).map (fun x => x % 2)
      = List.replicate l.length 0 := by
  intro l
  induction l with
  | nil => simp
  | cons x xs ih => simp [land254_mod_two, ih, List.replicate_succ]

lemma mask_flat : ∀ (l bits : List Nat), (∀ b ∈ bits, b ≤ 1) →
    (List.zipWith (fun c b => c ||| b) (l.map (fun x => x &&& 254)) bits
       ++ (l.map (fun x => x &&& 254)).drop bits.length).map (fun x => x &&& 254)
    = l.map (fun x => x &&& 254) := by
  intro l
  induction l with
  | nil => intro bits _; simp
  | cons x xs ih =>
    intro bits hb
    cases bits with
    | nil =>
      simp only [List.zipWith_nil_right, List.length_nil, List.drop_zero,
        List.nil_append, List.map_map]
      exact List.map_congr_left (fun a _ => land254_land254 a)
    | cons b bs =>
      have hb0 : b ≤ 1 := hb b (by simp)
      have ih2 := ih bs (fun d hd => hb d (by simp [hd]))
      simp [lor_bit_land254 x b hb0, ih2]

lemma lsb_flat : ∀ (l bits : List Nat), (∀ b ∈ bits, b ≤ 1) →
    bits.length ≤ l.length →
    (List.zipWith (fun c b => c ||| b) (l.map (fun x => x &&& 254)) bits
       ++ (l.map (fun x => x &&& 254)).drop bits.length).map (fun x => x % 2)
    = bits ++ List.replicate (l.length - bits.length) 0 := by
  intro l
  induction l with
  | nil =>
    intro bits _ hlen
    have : bits = [] := List.eq_nil_of_length_eq_zero (Nat.le_zero.mp hlen)
    subst this
    simp
  | cons x xs ih =>
    intro bits hb hlen
    cases bits with
    | nil => simpa using map_mod_map_land (x :: xs)
    | cons b bs =>
      have hb0 : b ≤ 1 := hb b (by simp)
      have ih2 := ih bs (fun d hd => hb d (by simp [hd])) (by simpa using hlen)
      simp [lor_bit_mod_two x b hb0, ih2, Nat.succ_sub_succ]

/-! Properties of the byte-group splitter `chunk8`. -/

lemma not_cons8_length_lt (l : List Nat)
    (h : ∀ (b0 b1 b2 b3 b4 b5 b6 b7 : Nat) (rest : List Nat),
      l = b0 :: b1 :: b2 :: b3 :: b4 :: b5 :: b6 :: b7 :: rest → False) :
    l.length < 8 := by
  rcases l with _ | ⟨b0, _ | ⟨b1, _ | ⟨b2, _ | ⟨b3, _ | ⟨b4, _ | ⟨b5, _ | ⟨b6, _ | ⟨b7, rest⟩⟩⟩⟩⟩⟩⟩⟩ <;>
    simp
  exact (h b0 b1 b2 b3 b4 b5 b6 b7 rest rfl).elim

lemma chunk8_short (l : List Nat) (h0 : l ≠ []) (h8 : l.length < 8) :
    chunk8 l = [l] := by
  rcases l with _ | ⟨b0, _ | ⟨b1, _ | ⟨b2, _ | ⟨b3, _ | ⟨b4, _ | ⟨b5, _ | ⟨b6, _ | ⟨b7, rest⟩⟩⟩⟩⟩⟩⟩⟩
  · exact absurd rfl h0
  all_goals first
    | rfl
    | (exfalso; simp at h8; omega)

lemma chunk8_append8 : ∀ (c l : List Nat), c.length = 8 →
    chunk8 (c ++ l) = c :: chunk8 l := by
  intro c l h
  rcases c with _ | ⟨b0, _ | ⟨b1, _ | ⟨b2, _ | ⟨b3, _ | ⟨b4, _ | ⟨b5, _ | ⟨b6, _ | ⟨b7, rest⟩⟩⟩⟩⟩⟩⟩⟩ <;>
    simp at h
  subst h
  rfl

lemma chunk8_append_of_mul : ∀ (n : Nat) (l₁ l₂ : List Nat),
    l₁.length = 8 * n → chunk8 (l₁ ++ l₂) = chunk8 l₁ ++ chunk8 l₂ := by
  intro n
  induction n with
  | zero =>
    intro l₁ l₂ h
    have : l₁ = [] := List.eq_nil_of_length_eq_zero (by omega)
    subst this
    simp [chunk8]
  | succ n ih =>
    intro l₁ l₂ h
    have htake : (l₁.take 8).length = 8 := by
      simp only [List.length_take]
      omega
    have hdrop : (l₁.drop 8).length = 8 * n := by
      simp only [List.length_drop]
      omega
    have hsplit : l₁.take 8 ++ l₁.drop 8 = l₁ := List.take_append_drop 8 l₁
    calc chunk8 (l₁ ++ l₂)
        = chunk8 (l₁.take 8 ++ (l₁.drop 8 ++ l₂)) := by
          rw [← List.append_assoc, hsplit]
      _ = l₁.take 8 :: chunk8 (l₁.drop 8 ++ l₂) := chunk8_append8 _ _ htake
      _ = l₁.take 8 :: (chunk8 (l₁.drop 8) ++ chunk8 l₂) := by
          rw [ih _ _ hdrop]
      _ = (l₁.take 8 :: chunk8 (l₁.drop 8)) ++ chunk8 l₂ := rfl
      _ = chunk8 (l₁.take 8 ++ l₁.drop 8) ++ chunk8 l₂ := by
          rw [chunk8_append8 _ _ htake]
      _ = chunk8 l₁ ++ chunk8 l₂ := by rw [hsplit]

lemma chunk8_length : ∀ (l : List Nat),
    (chunk8 l).length = (l.length + 7) / 8 := by
  intro l
  induction l using chunk8.induct with
  | case1 => simp [chunk8]
  | case2 b0 b1 b2 b3 b4 b5 b6 b7 rest ih =>
    simp only [chunk8, List.length_cons, ih]
    omega
  | case3 l h0 h8 =>
    have hne : l ≠ [] := fun hl => h0 hl
    have hlt : l.length < 8 := not_cons8_length_lt l h8
    have hpos : 0 < l.length := List.length_pos.mpr hne
    rw [chunk8_short l hne hlt]
    simp only [List.length_cons, List.length_nil]
    omega

lemma chunk8_mem : ∀ (l c : List Nat), c ∈ chunk8 l →
    c ≠ [] ∧ c.length ≤ 8 ∧ ∀ b ∈ c, b ∈ l := by
  intro l
  induction l using chunk8.induct with
  | case1 => intro c hc; simp [chunk8] at hc
  | case2 b0 b1 b2 b3 b4 b5 b6 b7 rest ih =>
    intro c hc
    simp only [chunk8, List.mem_cons] at hc
    rcases hc with rfl | hc
    · refine ⟨by simp, by simp, ?_⟩
      intro b hb
      simp only [List.mem_cons] at hb ⊢
      tauto
    · obtain ⟨h1, h2, h3⟩ := ih c hc
      refine ⟨h1, h2, ?_⟩
      intro b hb
      have := h3 b hb
      simp only [List.mem_cons]
      tauto
  | case3 l h0 h8 =>
    intro c hc
    have hne : l ≠ [] := fun hl => h0 hl
    have hlt : l.length < 8 := not_cons8_length_lt l h8
    rw [chunk8_short l hne hlt] at hc
    simp only [List.mem_cons, List.not_mem_nil, or_false] at hc
    subst hc
    exact ⟨hne, by omega, fun b hb => hb⟩

/-! Values of byte groups and the per-character bit codes. -/

lemma foldl_bits_lt : ∀ (c : List Nat) (a : Nat), (∀ b ∈ c, b ≤ 1) →
    List.foldl (fun acc b => 2 * acc + b) a c < (a + 1) * 2 ^ c.length := by
  intro c
  induction c with
  | nil => intro a _; simp
  | cons d c ih =>
    intro a hb
    have hd : d ≤ 1 := hb d (by simp)
    have h1 := ih (2 * a + d) (fun b h => hb b (by simp [h]))
    have h2 : (2 * a + d + 1) * 2 ^ c.length ≤ (a + 1) * 2 ^ (c.length + 1) := by
      have e : (a + 1) * 2 ^ (c.length + 1) = (2 * (a + 1)) * 2 ^ c.length := by
        ring
      rw [e]
      exact Nat.mul_le_mul_right _ (by omega)
    simp only [List.foldl_cons, List.length_cons]
    exact Nat.lt_of_lt_of_le h1 h2

lemma chunkVal_lt (c : List Nat) (hb : ∀ b ∈ c, b ≤ 1) :
    chunkVal c < 2 ^ c.length := by
  simpa [chunkVal] using foldl_bits_lt c 0 hb

lemma charFromByte_eq (c : List Nat) (h0 : c ≠ []) (hb : ∀ b ∈ c, b ≤ 1)
    (h8 : c.length ≤ 8) : charFromByte c = some (chunkVal c) := by
  have hub : chunkVal c ≤ 1114111 := by
    have h1 := chunkVal_lt c hb
    have h2 : (2 : Nat) ^ c.length ≤ 2 ^ 8 := Nat.pow_le_pow_right (by omega) h8
    norm_num at h2
    omega
  simp only [charFromByte, h0, if_false, hub, if_true, List.all_eq_true,
    decide_eq_true_eq]
  rw [if_pos hb]

lemma toBits8_length (c : Nat) : (toBits8 c).length = 8 := rfl

lemma toBits8_le_one (c : Nat) : ∀ b ∈ toBits8 c, b ≤ 1 := by
  intro b hb
  simp only [toBits8, List.mem_cons, List.not_mem_nil, or_false] at hb
  rcases hb with rfl | rfl | rfl | rfl | rfl | rfl | rfl | rfl <;> omega

lemma chunkVal_toBits8 (c : Nat) (hc : c < 256) : chunkVal (toBits8 c) = c := by
  simp only [chunkVal, toBits8, List.foldl_cons, List.foldl_nil]
  omega

lemma chunkVal_zeros8 : chunkVal zeros8 = 0 := rfl

lemma toBits8_ne_zeros8 (c : Nat) (hc : c < 256) (hnz : c ≠ 0) :
    toBits8 c ≠ zeros8 := by
  intro h
  have hv := chunkVal_toBits8 c hc
  rw [h, chunkVal_zeros8] at hv
  exact hnz hv.symm

lemma textToBits_nil : textToBits [] = [] := rfl

lemma textToBits_cons (c : Nat) (m : List Nat) :
    textToBits (c :: m) = toBits8 c ++ textToBits m := by
  simp [textToBits]

lemma textToBits_length (m : List Nat) : (textToBits m).length = 8 * m.length := by
  induction m with
  | nil => simp [textToBits]
  | cons c m ih =>
    rw [textToBits_cons]
    simp only [List.length_append, toBits8_length, ih, List.length_cons]
    omega

lemma textToBits_le_one (m : List Nat) : ∀ b ∈ textToBits m, b ≤ 1 := by
  intro b hb
  simp only [textToBits, List.mem_flatten, List.mem_map] at hb
  obtain ⟨l, ⟨c, _, rfl⟩, hbl⟩ := hb
  exact toBits8_le_one c b hbl

lemma chunk8_textToBits (m : List Nat) : chunk8 (textToBits m) = m.map toBits8 := by
  induction m with
  | nil => simp [textToBits, chunk8]
  | cons c m ih =>
    rw [textToBits_cons, chunk8_append8 _ _ (toBits8_length c), ih]
    simp

/-! Behavior of the group-to-text conversion loop. -/

lemma convertGo_pre_sentinel : ∀ (A B : List (List Nat)), zeros8 ∉ A →
    (∀ c ∈ A, charFromByte c = some (chunkVal c)) →
    convertGo (A ++ zeros8 :: B) = some (A.map chunkVal) := by
  intro A
  induction A with
  | nil => intro B _ _; simp [convertGo]
  | cons c A ih =>
    intro B hnz hgood
    have hc : c ≠ zeros8 := fun h => hnz (by simp [h])
    have hcg := hgood c (by simp)
    have ihh := ih B (fun h => hnz (by simp [h])) (fun d hd => hgood d (by simp [hd]))
    simp [convertGo, hc, hcg, ihh]

lemma convertGo_no_sentinel : ∀ (A : List (List Nat)), zeros8 ∉ A →
    (∀ c ∈ A, charFromByte c = some (chunkVal c)) →
    convertGo A = some (A.map chunkVal) := by
  intro A
  induction A with
  | nil => intro _ _; simp [convertGo]
  | cons c A ih =>
    intro hnz hgood
    have hc : c ≠ zeros8 := fun h => hnz (by simp [h])
    have hcg := hgood c (by simp)
    have ihh := ih (fun h => hnz (by simp [h])) (fun d hd => hgood d (by simp [hd]))
    simp [convertGo, hc, hcg, ihh]

lemma convertGo_total : ∀ (A : List (List Nat)),
    (∀ c ∈ A, ∃ v, charFromByte c = some v) →
    ∃ m, convertGo A = some m := by
  intro A
  induction A with
  | nil => intro _; exact ⟨[], rfl⟩
  | cons c A ih =>
    intro h
    by_cases hc : c = zeros8
    · exact ⟨[], by simp [convertGo, hc]⟩
    · obtain ⟨v, hv⟩ := h c (by simp)
      obtain ⟨m, hm⟩ := ih (fun d hd => h d (by simp [hd]))
      exact ⟨v :: m, by simp [convertGo, hc, hv, hm]⟩

lemma unidecode_eq (message : List Nat) : unidecode message = message := rfl

lemma lsb_chunks_good (l : List Nat) (hb : ∀ b ∈ l, b ≤ 1) :
    ∀ c ∈ chunk8 l, charFromByte c = some (chunkVal c) := by
  intro c hc
  obtain ⟨h1, h2, h3⟩ := chunk8_mem l c hc
  exact charFromByte_eq c h1 (fun b hbc => hb b (h3 b hbc)) h2

lemma encode_ok_inv (img : Image) (m : List Nat) (out : Image)
    (h : encode img m = .ok out) :
    ∃ bpp, determineBytesPerPixel img.mode = .ok bpp ∧
      (textToBits m).length ≤ img.width * img.height * bpp / 8 ∧
      encodeBits (clearLSBits img.data) (textToBits m) = some out.data ∧
      out.width = img.width ∧ out.height = img.height ∧ out.mode = img.mode ∧
      out.data.flatten.length = img.height * img.width * bpp := by
  unfold encode calculateImageCapacity at h
  rw [unidecode_eq] at h
  cases hbpp : determineBytesPerPixel img.mode with
  | error e =>
    rw [hbpp] at h
    simp at h
  | ok bpp =>
    rw [hbpp] at h
    dsimp only at h
    by_cases hlen :
        (textToBits m).length > img.width * img.height * bpp / 8
    · rw [if_pos hlen] at h
      simp at h
    · rw [if_neg hlen] at h
      cases henc : encodeBits (clearLSBits img.data) (textToBits m) with
      | none =>
        rw [henc] at h
        simp at h
      | some d =>
        rw [henc] at h
        dsimp only at h
        by_cases hre : d.flatten.length = img.height * img.width * bpp
        · rw [if_pos hre] at h
          injection h with h2
          subst h2
          exact ⟨bpp, rfl, by omega, rfl, rfl, rfl, rfl, hre⟩
        · rw [if_neg hre] at h
          simp at h

lemma encode_eval (img : Image) (m : List Nat) (bpp : Nat) (d : List (List Nat))
    (hbpp : determineBytesPerPixel img.mode = .ok bpp)
    (hlen : ¬ (textToBits m).length > img.width * img.height * bpp / 8)
    (henc : encodeBits (clearLSBits img.data) (textToBits m) = some d)
    (hre : d.flatten.length = img.height * img.width * bpp) :
    encode img m = .ok { img with data := d } := by
  unfold encode calculateImageCapacity
  rw [hbpp]
  dsimp only
  rw [unidecode_eq, if_neg hlen, henc]
  dsimp only
  rw [if_pos hre]

/-! The claims. -/

/-- C4.  Capacity exactness: for every width, height and supported mode the
capacity is `width * height * bytesPerPixel // 8` with integer floor
division; in particular a 10×10 RGB image has capacity 37. -/
theorem C4_capacity_exactness :
    (∀ (w h : Nat) (d : List (List Nat)),
      calculateImageCapacity { width := w, height := h, mode := "RGB", data := d }
        = .ok (w * h * 3 / 8)) ∧
    (∀ (w h : Nat) (d : List (List Nat)),
      calculateImageCapacity { width := w, height := h, mode := "RGBA", data := d }
        = .ok (w * h * 4 / 8)) ∧
    calculateImageCapacity { width := 10, height := 10, mode := "RGB", data := [] }
      = .ok 37 := by
  refine ⟨?_, ?_, rfl⟩ <;> intro w h d <;> rfl

/-- C9.  Unsupported mode rejection: `determineBytesPerPixel` returns 3 for
RGB and 4 for RGBA and fails with the unsupported-format error on every
other mode string; consequently the capacity of a CMYK image fails the same
way for all dimensions. -/
theorem C9_unsupported_mode_rejection :
    determineBytesPerPixel ("RGB") = .ok 3 ∧
    determineBytesPerPixel ("RGBA") = .ok 4 ∧
    (∀ mode : String, mode ≠ "RGB" → mode ≠ "RGBA" →
      determineBytesPerPixel mode = .error .unsupportedFormat) ∧
    (∀ (w h : Nat) (d : List (List Nat)),
      calculateImageCapacity { width := w, height := h, mode := "CMYK", data := d }
        = .error .unsupportedFormat) := by
  refine ⟨rfl, rfl, ?_, ?_⟩
  · intro mode h1 h2
    simp [determineBytesPerPixel, h1, h2]
  · intro w h d
    rfl

/-- Witness for C9 at the concrete mode string of the claim. -/
theorem C9_unsupported_mode_rejection_witness :
    determineBytesPerPixel ("CMYK") = .error .unsupportedFormat ∧
    calculateImageCapacity { width := 5, height := 7, mode := "CMYK", data := [] }
      = .error .unsupportedFormat :=
  ⟨C9_unsupported_mode_rejection.2.2.1 "CMYK" (by decide) (by decide),
   C9_unsupported_mode_rejection.2.2.2 5 7 []⟩

/-- C2 (code bug).  The spec scenario: a 4×4 RGB image has capacity 6
characters, so encoding the 16-bit message "Hi" (codes 72, 105) should
succeed.  The source compares the *bit* count of the message against the
capacity measured in *characters* (`len(message_binary) > capacity`,
line 78), so the 16-bit message is rejected with the message-too-large
error even though 16 ≤ 8·6. -/
theorem C2_overflow_threshold_bug :
    calculateImageCapacity imgRGB4x4 = .ok 6 ∧
    (textToBits [72, 105]).length = 16 ∧
    encode imgRGB4x4 [72, 105] = .error .messageTooLarge :=
  ⟨rfl, rfl, rfl⟩

/-- C10.  `encodeBits` returns `None` exactly when the bit string is at
least as long as the total number of channel bytes (in particular on an
empty array), and `encode` of an image with an empty pixel buffer and the
empty message therefore fails at the reshape step (attribute error on
`None`) instead of returning a buffer. -/
theorem C10_encodeBits_none :
    (∀ (data : List (List Nat)) (bits : List Nat),
      encodeBits data bits = none ↔ data.flatten.length ≤ bits.length) ∧
    encode { width := 0, height := 0, mode := "RGB", data := [] } []
      = .error .noneTypeAttributeError :=
  ⟨encodeBits_eq_none_iff, rfl⟩

/-- C8.  Decode totality: decoding never fails — every image, the empty
buffer included, decodes to some string; and the result does not depend on
the color mode field at all. -/
theorem C8_decode_totality :
    (∀ img : Image, ∃ m, decode img = some m) ∧
    decode imgEmptyBuffer = some [] ∧
    (∀ (img : Image) (mode2 : String),
      decode { img with mode := mode2 } = decode img) := by
  refine ⟨?_, rfl, fun img mode2 => rfl⟩
  intro img
  show ∃ m, convertGo (chunk8 (extractLSBits img.data)) = some m
  apply convertGo_total
  intro c hc
  obtain ⟨h1, h2, h3⟩ := chunk8_mem _ c hc
  refine ⟨chunkVal c, charFromByte_eq c h1 ?_ h2⟩
  intro b hb
  have hmem := h3 b hb
  simp only [extractLSBits, List.mem_map] at hmem
  obtain ⟨x, _, rfl⟩ := hmem
  omega

/-- C3 counterexample.  The bit sequence `"1"` has a single group of fewer
than eight bits; the claim predicts it is discarded (empty decoded string),
but the source converts it like any non-sentinel group, yielding the
character `chr(1)`. -/
theorem C3_partial_tail_counterexample :
    convertBinaryStringToMessage [1] = some [1] ∧
    some [1] ≠ (some ([] : List Nat)) :=
  ⟨rfl, by decide⟩

/-- C3 as amended.  When the bit-sequence length is not a multiple of eight
and no group hits the all-zero sentinel, the final group of fewer than
eight bits is *not* discarded: it is decoded like a full group (it can
never equal the eight-zero sentinel), so the message has one character more
than the number of complete groups. -/
theorem C3_partial_tail_converted (bits : List Nat) (hb : ∀ b ∈ bits, b ≤ 1)
    (hlen : ¬ 8 ∣ bits.length) (hnz : zeros8 ∉ chunk8 bits) :
    convertBinaryStringToMessage bits = some ((chunk8 bits).map chunkVal) ∧
    ((chunk8 bits).map chunkVal).length = bits.length / 8 + 1 := by
  constructor
  · show convertGo (chunk8 bits) = _
    exact convertGo_no_sentinel _ hnz (lsb_chunks_good bits hb)
  · rw [List.length_map, chunk8_length]
    omega

/-- Witness for the amended C3 on the two-bit sequence `"11"`. -/
theorem C3_partial_tail_converted_witness :
    convertBinaryStringToMessage [1, 1] = some ((chunk8 [1, 1]).map chunkVal) ∧
    ((chunk8 [1, 1]).map chunkVal).length = [1, 1].length / 8 + 1 :=
  C3_partial_tail_converted [1, 1] (by decide) (by decide) (by decide)

/-- C7.  Sentinel truncation: the conversion stops at the first all-zero
eight-bit group and returns exactly the characters decoded before it,
excluding the sentinel; in particular an image whose first eight bytes all
have least significant bit zero decodes to the empty string. -/
theorem C7_sentinel_truncation :
    (∀ (pre post : List Nat), (∀ b ∈ pre, b ≤ 1) → 8 ∣ pre.length →
      zeros8 ∉ chunk8 pre →
      convertBinaryStringToMessage (pre ++ (zeros8 ++ post))
        = some ((chunk8 pre).map chunkVal)) ∧
    (∀ img : Image, (extractLSBits img.data).take 8 = zeros8 →
      decode img = some []) := by
  constructor
  · intro pre post hb hdvd hnz
    obtain ⟨n, hn⟩ := hdvd
    show convertGo (chunk8 (pre ++ (zeros8 ++ post))) = _
    rw [chunk8_append_of_mul n pre (zeros8 ++ post) hn,
      chunk8_append8 zeros8 post rfl]
    exact convertGo_pre_sentinel _ _ hnz (lsb_chunks_good pre hb)
  · intro img hz
    show convertGo (chunk8 (extractLSBits img.data)) = _
    have hsp : extractLSBits img.data
        = zeros8 ++ (extractLSBits img.data).drop 8 := by
      conv_lhs => rw [← List.take_append_drop 8 (extractLSBits img.data)]
      rw [hz]
    rw [hsp, chunk8_append8 zeros8 ((extractLSBits img.data).drop 8) rfl]
    simp [convertGo]

/-- C5.  LSB-only mutation: a successful encode returns a buffer of the
same byte length whose bytes agree with the original on every bit except
the least significant one (`encoded[i] &&& 254 = original[i] &&& 254` at
every buffer position). -/
theorem C5_lsb_only_mutation (img : Image) (m : List Nat) (out : Image)
    (h : encode img m = .ok out) :
    out.data.flatten.length = img.data.flatten.length ∧
    ∀ i : Nat,
      (out.data.flatten.get? i).map (fun b => b &&& 254)
        = (img.data.flatten.get? i).map (fun b => b &&& 254) := by
  obtain ⟨bpp, _, _, henc, _, _, _, _⟩ := encode_ok_inv img m out h
  have hchar := encodeBits_some_flatten _ _ _ henc
  have hmask : out.data.flatten.map (fun b => b &&& 254)
      = img.data.flatten.map (fun b => b &&& 254) := by
    rw [hchar, clearLSBits_flatten]
    exact mask_flat img.data.flatten (textToBits m) (textToBits_le_one m)
  constructor
  · have hl := congrArg List.length hmask
    rw [List.length_map, List.length_map] at hl
    exact hl
  · intro i
    have h1 : (out.data.flatten.map (fun b => b &&& 254)).get? i
        = (img.data.flatten.map (fun b => b &&& 254)).get? i := by rw [hmask]
    rw [List.get?_map, List.get?_map] at h1
    exact h1

/-- Witness for C5 at the concrete encode of the character with code 72. -/
theorem C5_lsb_only_mutation_witness :
    outRGB8x3.data.flatten.length = imgRGB8x3.data.flatten.length ∧
    (outRGB8x3.data.flatten.get? 1).map (fun b => b &&& 254)
      = (imgRGB8x3.data.flatten.get? 1).map (fun b => b &&& 254) :=
  ⟨(C5_lsb_only_mutation imgRGB8x3 [72] outRGB8x3 rfl).1,
   (C5_lsb_only_mutation imgRGB8x3 [72] outRGB8x3 rfl).2 1⟩

/-- C6.  Zero-tail contiguity: after a successful encode of a message whose
bit sequence has length n, every byte of the output buffer at a position of
at least n has least significant bit 0, all the way to the end of the
buffer. -/
theorem C6_zero_tail_contiguity (img : Image) (m : List Nat) (out : Image)
    (h : encode img m = .ok out) :
    ∀ i : Nat, (textToBits m).length ≤ i →
      ∀ b : Nat, out.data.flatten.get? i = some b → b % 2 = 0 := by
  obtain ⟨bpp, _, _, henc, _, _, _, _⟩ := encode_ok_inv img m out h
  have hlt : (textToBits m).length < (clearLSBits img.data).flatten.length := by
    by_contra hc
    push_neg at hc
    have hnone := (encodeBits_eq_none_iff _ _).mpr hc
    rw [henc] at hnone
    cases hnone
  have hcl : (clearLSBits img.data).flatten.length = img.data.flatten.length := by
    rw [clearLSBits_flatten, List.length_map]
  have hlsb : out.data.flatten.map (fun b => b % 2)
      = textToBits m
          ++ List.replicate (img.data.flatten.length - (textToBits m).length) 0 := by
    have hchar := encodeBits_some_flatten _ _ _ henc
    rw [hchar, clearLSBits_flatten]
    exact lsb_flat img.data.flatten (textToBits m) (textToBits_le_one m)
      (by omega)
  intro i hi b hb
  have h1 : (out.data.flatten.map (fun x => x % 2)).get? i = some (b % 2) := by
    rw [List.get?_map, hb]
    rfl
  rw [hlsb, List.get?_append_right hi, List.get?_eq_getElem?,
    List.getElem?_replicate] at h1
  by_cases hik :
      i - (textToBits m).length
        < img.data.flatten.length - (textToBits m).length
  · rw [if_pos hik] at h1
    injection h1 with h2
    omega
  · rw [if_neg hik] at h1
    cases h1

/-- Witness for C6: byte 10 of the concrete encoded buffer (position past
the eight message bits) is 20, whose least significant bit is 0. -/
theorem C6_zero_tail_contiguity_witness :
    outRGB8x3.data.flatten.get? 10 = some 20 ∧ (20 : Nat) % 2 = 0 :=
  ⟨rfl,
   C6_zero_tail_contiguity imgRGB8x3 [72] outRGB8x3 rfl 10 (by decide) 20 rfl⟩

/-- C1 counterexample.  The NUL character (code 0) is ASCII and its eight
bits fit the capacity bound of the claim, and encoding it succeeds, but
decoding returns the empty string, not the one-character message: the
all-zero byte group of the message itself is taken for the sentinel. -/
theorem C1_round_trip_counterexample :
    encode imgRGB8x3even [0] = .ok imgRGB8x3even ∧
    decode imgRGB8x3even = some [] ∧
    (some ([] : List Nat)) ≠ some [0] :=
  ⟨rfl, rfl, by decide⟩

/-- C1 as amended.  Round-trip: for every image with a supported color mode
and a consistent, at least eight bytes large pixel buffer, and every ASCII
message without NUL characters whose bit count `8·len(m)` is within the
capacity bound of the claim, decoding the encoded image returns the
message. -/
theorem C1_round_trip (img : Image) (m : List Nat) (bpp : Nat)
    (hbpp : determineBytesPerPixel img.mode = .ok bpp)
    (hsize : img.data.flatten.length = img.width * img.height * bpp)
    (hbytes : ∀ b ∈ img.data.flatten, b < 256)
    (hascii : ∀ c ∈ m, c < 128)
    (hnz : ∀ c ∈ m, c ≠ 0)
    (hcap : 8 * m.length ≤ img.width * img.height * bpp / 8)
    (hmin : 8 ≤ img.data.flatten.length) :
    ∃ out, encode img m = .ok out ∧ decode out = some m := by
  have hbits_len : (textToBits m).length = 8 * m.length := textToBits_length m
  have hcap2 : ¬ (textToBits m).length > img.width * img.height * bpp / 8 := by
    omega
  have hcl : (clearLSBits img.data).flatten.length = img.data.flatten.length := by
    rw [clearLSBits_flatten, List.length_map]
  have hlt : (textToBits m).length < (clearLSBits img.data).flatten.length := by
    have hdiv : img.width * img.height * bpp / 8 < img.width * img.height * bpp :=
      Nat.div_lt_self (by omega) (by omega)
    omega
  cases henc : encodeBits (clearLSBits img.data) (textToBits m) with
  | none =>
    exfalso
    have := (encodeBits_eq_none_iff _ _).mp henc
    omega
  | some d =>
    have hdlen : d.flatten.length = img.data.flatten.length := by
      have h1 := congrArg List.length (encodeBits_some_flatten _ _ _ henc)
      simp only [List.length_append, List.length_zipWith, List.length_drop,
        hcl] at h1
      omega
    have hok : encode img m = .ok { img with data := d } :=
      encode_eval img m bpp d hbpp hcap2 henc
        (by rw [hdlen, hsize]; ring)
    refine ⟨_, hok, ?_⟩
    have hlsb : d.flatten.map (fun b => b % 2)
        = textToBits m
            ++ List.replicate
                (img.data.flatten.length - (textToBits m).length) 0 := by
      rw [encodeBits_some_flatten _ _ _ henc, clearLSBits_flatten]
      exact lsb_flat img.data.flatten (textToBits m) (textToBits_le_one m)
        (by omega)
    have hrep : List.replicate (img.data.flatten.length - (textToBits m).length) (0 : Nat)
        = List.replicate 8 0
            ++ List.replicate
                (img.data.flatten.length - (textToBits m).length - 8) 0 := by
      rw [← List.replicate_add]
      congr 1
      omega
    show convertGo (chunk8 (extractLSBits d)) = some m
    have hext : extractLSBits d
        = textToBits m
            ++ (zeros8
                ++ List.replicate
                    (img.data.flatten.length - (textToBits m).length - 8) 0) := by
      show d.flatten.map (fun b => b % 2) = _
      rw [hlsb, hrep]
      rfl
    rw [hext,
      chunk8_append_of_mul m.length _ _ (by rw [hbits_len]),
      chunk8_append8 zeros8 _ rfl,
      chunk8_textToBits,
      convertGo_pre_sentinel (m.map toBits8) _ ?notmem ?good]
    case notmem =>
      intro hmem
      rw [List.mem_map] at hmem
      obtain ⟨c, hc, hceq⟩ := hmem
      exact toBits8_ne_zeros8 c (by have := hascii c hc; omega) (hnz c hc) hceq
    case good =>
      intro c' hc'
      rw [List.mem_map] at hc'
      obtain ⟨c, hc, rfl⟩ := hc'
      exact charFromByte_eq (toBits8 c) (by simp [toBits8])
        (toBits8_le_one c) (by rw [toBits8_length])
    congr 1
    rw [List.map_map]
    have hmapid : m.map (chunkVal ∘ toBits8) = m.map (fun c => c) :=
      List.map_congr_left
        (fun c hc => chunkVal_toBits8 c (by have := hascii c hc; omega))
    rw [hmapid, List.map_id']

/-- Witness for the amended C1: the character with code 72 round-trips
through the concrete 8×3 RGB image. -/
theorem C1_round_trip_witness :
    ∃ out, encode imgRGB8x3 [72] = .ok out ∧ decode out = some [72] :=
  C1_round_trip imgRGB8x3 [72] 3 rfl (by decide) (by decide) (by decide)
    (by decide) (by decide) (by decide)

/-- Witness for C7: one character before the sentinel, and the concrete
image whose first byte group of least significant bits is zero. -/
theorem C7_sentinel_truncation_witness :
    convertBinaryStringToMessage ([0, 1, 0, 0, 0, 0, 0, 1] ++ (zeros8 ++ [1, 0, 1]))
      = some ((chunk8 [0, 1, 0, 0, 0, 0, 0, 1]).map chunkVal) ∧
    decode imgFirstGroupZero = some [] :=
  ⟨C7_sentinel_truncation.1 [0, 1, 0, 0, 0, 0, 0, 1] [1, 0, 1]
      (by decide) (by decide) (by decide),
   C7_sentinel_truncation.2 imgFirstGroupZero (by decide)⟩

end Steg
